import Mathlib

/-!
A shallow embedding of the analysis caching and invalidation subsystem in
`mlir/include/mlir/Pass/AnalysisManager.h`, together with proofs of the
specification's claims about it.

Modelling conventions:
* `TypeID` values are modelled as natural numbers; the private sentinel
  `TypeID::get<AllAnalysesType>()` is the distinguished value `allAnalysesID`.
* `Operation *` identities are modelled as natural numbers.
* An analysis type `AnalysisT` is modelled by `AnalysisType`: its `TypeID`
  plus an optional custom `isInvalidated` predicate (present exactly when the
  C++ type defines one, mirroring the `is_detected` dispatch in
  `analysis_impl`).
* Heap identity of a constructed analysis instance is modelled by a token
  drawn from a freshness counter carried in the `AnalysisMap` state.
* `llvm::DenseMap` / `SmallPtrSet` are modelled as association lists / lists
  used with set semantics; `DenseMap` key uniqueness is the `keysNodup`
  invariant proved below.
* The `PassInstrumentor` is modelled by a `Bool` ("a sink is installed") and
  an explicit event trace emitted by the operations that would notify it.
-/

/-- Key lookup in an association list, returning the first binding.
Models `DenseMap::find`. -/
def lookupKey {α : Type} (k : Nat) : List (Nat × α) → Option α
  | [] => none
  | (k2, v) :: rest => if k2 = k then some v else lookupKey k rest

/-- The `TypeID` of the private sentinel type `PreservedAnalyses::AllAnalysesType`.
It is distinct from the id of every user-visible analysis type. -/
def allAnalysesID : Nat := 0

/-- Set-semantics insertion, modelling `SmallPtrSet::insert`. -/
def insertID (id : Nat) (l : List Nat) : List Nat :=
  if id ∈ l then l else id :: l

/-- `detail::PreservedAnalyses`: the set of analysis ids known to be preserved. -/
structure PreservedAnalyses where
  preservedIDs : List Nat

/-- A fresh `PreservedAnalyses` (default-constructed, empty set). -/
def emptyPA : PreservedAnalyses := ⟨[]⟩

/-- `PreservedAnalyses::preserveAll`: insert the `AllAnalysesType` sentinel id. -/
def PreservedAnalyses.preserveAll (s : PreservedAnalyses) : PreservedAnalyses :=
  ⟨insertID allAnalysesID s.preservedIDs⟩

/-- `PreservedAnalyses::isAll`: membership test for the sentinel id. -/
def PreservedAnalyses.isAll (s : PreservedAnalyses) : Bool :=
  decide (allAnalysesID ∈ s.preservedIDs)

/-- `PreservedAnalyses::isNone`: the underlying set is empty. -/
def PreservedAnalyses.isNone (s : PreservedAnalyses) : Bool :=
  s.preservedIDs.isEmpty

/-- `PreservedAnalyses::preserve(TypeID)`: insert the given id. -/
def PreservedAnalyses.preserve (id : Nat) (s : PreservedAnalyses) : PreservedAnalyses :=
  ⟨insertID id s.preservedIDs⟩

/-- `PreservedAnalyses::isPreserved(TypeID)`: a plain membership test on the
explicit id set (the source notes it "simply checks for the presence of a
given analysis ID"). -/
def PreservedAnalyses.isPreserved (id : Nat) (s : PreservedAnalyses) : Bool :=
  decide (id ∈ s.preservedIDs)

/-- The mutating operations a client can perform on a `PreservedAnalyses`. -/
inductive PAOp where
  | preserve (id : Nat)
  | preserveAllOp
deriving DecidableEq

/-- Apply a sequence of `preserve` / `preserveAll` calls to a set. -/
def applyPA : List PAOp → PreservedAnalyses → PreservedAnalyses
  | [], s => s
  | PAOp.preserve id :: ops, s => applyPA ops (s.preserve id)
  | PAOp.preserveAllOp :: ops, s => applyPA ops s.preserveAll

/-- An analysis type: its `TypeID` and, when the C++ type defines its own
`isInvalidated(const PreservedAnalyses &)`, that custom predicate. -/
structure AnalysisType where
  id : Nat
  custom : Option (PreservedAnalyses → Bool)

/-- `analysis_impl::isInvalidated`: dispatch to the analysis's own predicate
when it has one, otherwise the default `!pa.isPreserved<AnalysisT>()`. -/
def analysisIsInvalidated (T : AnalysisType) (pa : PreservedAnalyses) : Bool :=
  match T.custom with
  | some f => f pa
  | none => !(pa.isPreserved T.id)

/-- A predicate on preserved sets that honours the all-flag: it reports
"not invalidated" whenever `isAll()` holds. -/
def respectsIsAll (f : PreservedAnalyses → Bool) : Prop :=
  ∀ pa : PreservedAnalyses, pa.isAll = true → f pa = false

/-- `detail::AnalysisModel` behind the `AnalysisConcept` interface: the stored
analysis type together with the identity token of the constructed instance. -/
structure AnalysisConceptM where
  ty : AnalysisType
  tok : Nat

/-- The virtual `AnalysisConcept::isInvalidated` as implemented by
`AnalysisModel`: forwards to `analysis_impl::isInvalidated`. -/
def AnalysisConceptM.isInvalidated (c : AnalysisConceptM) (pa : PreservedAnalyses) : Bool :=
  analysisIsInvalidated c.ty pa

/-- Instrumentation events observed by the `PassInstrumentor`, plus the
construction itself so a trace shows what runs between the notifications. -/
inductive Event where
  | before (id : Nat) (ir : Nat)
  | construct (id : Nat) (ir : Nat)
  | after (id : Nat) (ir : Nat)

/-- `detail::AnalysisMap`: the per-operation analysis cache. `ir` is the
operation, `analyses` the `TypeID → AnalysisConcept` map, and `nextTok` the
freshness counter modelling heap allocation of analysis instances. -/
structure AnalysisMap where
  ir : Nat
  analyses : List (Nat × AnalysisConceptM)
  nextTok : Nat

/-- `AnalysisMap::getCachedAnalysis`: look up the cached instance, if any. -/
def AnalysisMap.getCachedAnalysis (T : AnalysisType) (m : AnalysisMap) : Option Nat :=
  (lookupKey T.id m.analyses).map AnalysisConceptM.tok

/-- `AnalysisMap::clear`: drop every held analysis. -/
def AnalysisMap.clear (m : AnalysisMap) : AnalysisMap :=
  ⟨m.ir, [], m.nextTok⟩

/-- `AnalysisMap::invalidate`: erase exactly the cells whose `isInvalidated`
predicate answers true for the given preserved set. -/
def AnalysisMap.invalidate (pa : PreservedAnalyses) (m : AnalysisMap) : AnalysisMap :=
  ⟨m.ir, m.analyses.filter (fun kc => !(kc.2.isInvalidated pa)), m.nextTok⟩

/-- `AnalysisMap::getAnalysisImpl`: return the cached instance on a hit; on a
miss notify the instrumentor (when installed), construct, notify again, insert
under the analysis's `TypeID`, and return the new instance. The returned list
is the emitted event trace. -/
def AnalysisMap.getAnalysisImpl (pi : Bool) (T : AnalysisType) (m : AnalysisMap) :
    AnalysisMap × Nat × List Event :=
  match lookupKey T.id m.analyses with
  | some c => (m, c.tok, [])
  | none =>
    let tok := m.nextTok
    let events :=
      if pi then
        [Event.before T.id m.ir, Event.construct T.id m.ir, Event.after T.id m.ir]
      else
        [Event.construct T.id m.ir]
    (⟨m.ir, m.analyses ++ [(T.id, ⟨T, tok⟩)], tok + 1⟩, tok, events)

/-- The requests a client can issue against one per-node cache. -/
inductive Req where
  | get (T : AnalysisType)
  | getCached (T : AnalysisType)
  | inval (pa : PreservedAnalyses)
  | clearReq

/-- One request against the cache, returning the new state and event trace. -/
def stepTrace (pi : Bool) : Req → AnalysisMap → AnalysisMap × List Event
  | Req.get T, m =>
    let r := m.getAnalysisImpl pi T
    (r.1, r.2.2)
  | Req.getCached _, m => (m, [])
  | Req.inval pa, m => (m.invalidate pa, [])
  | Req.clearReq, m => (m.clear, [])

/-- Run a sequence of requests, concatenating the event traces. -/
def runTrace (pi : Bool) : List Req → AnalysisMap → AnalysisMap × List Event
  | [], m => (m, [])
  | r :: rs, m =>
    let s1 := stepTrace pi r m
    let s2 := runTrace pi rs s1.1
    (s2.1, s1.2 ++ s2.2)

/-- A request that is neither an invalidation nor a clear: the benign
operations that may run between two `getAnalysis` calls without affecting
identity stability. -/
def nonInvalidating : Req → Bool
  | Req.inval _ => false
  | Req.clearReq => false
  | _ => true

/-- A well-formed instrumentation trace: a sequence of construction blocks,
each a before-notification, the construction, and an after-notification of
the same analysis on the same operation, with nothing in between. -/
inductive WFTrace : List Event → Prop
  | nil : WFTrace []
  | block (id ir : Nat) (es : List Event) (h : WFTrace es) :
      WFTrace (Event.before id ir :: Event.construct id ir :: Event.after id ir :: es)

/-- Does the event mention analysis id `i` as a before-notification? -/
def isBefore (i : Nat) : Event → Bool
  | Event.before j _ => j = i
  | _ => false

/-- Does the event mention analysis id `i` as a construction? -/
def isConstruct (i : Nat) : Event → Bool
  | Event.construct j _ => j = i
  | _ => false

/-- Does the event mention analysis id `i` as an after-notification? -/
def isAfter (i : Nat) : Event → Bool
  | Event.after j _ => j = i
  | _ => false

/-- Count the events satisfying a predicate. -/
def countEv (f : Event → Bool) (es : List Event) : Nat :=
  (es.filter f).length

/-- `DenseMap` key uniqueness: the association list binds each key once. -/
def keysNodup {α : Type} (l : List (Nat × α)) : Prop :=
  (l.map Prod.fst).Nodup

/-- `detail::NestedAnalysisMap`: the per-operation cache together with the
lazily populated map from child operation to child nested map. -/
inductive NestedAnalysisMap where
  | mk (analyses : AnalysisMap) (childAnalyses : List (Nat × NestedAnalysisMap))

/-- The `analyses` field of a `NestedAnalysisMap`. -/
def NestedAnalysisMap.analyses : NestedAnalysisMap → AnalysisMap
  | .mk a _ => a

/-- The `childAnalyses` field of a `NestedAnalysisMap`. -/
def NestedAnalysisMap.childAnalyses : NestedAnalysisMap → List (Nat × NestedAnalysisMap)
  | .mk _ c => c

/-- `NestedAnalysisMap::getOperation`. -/
def NestedAnalysisMap.getOperation (nm : NestedAnalysisMap) : Nat :=
  nm.analyses.ir

/-- Modelled from the spec: the body of `NestedAnalysisMap::invalidate` is
declared in the header but lives in the pass-manager implementation file,
which is not among the sources; per the spec it invalidates this node's own
per-node cache only and does not cascade into the child maps. -/
def NestedAnalysisMap.invalidate (pa : PreservedAnalyses) : NestedAnalysisMap → NestedAnalysisMap
  | .mk a c => .mk (a.invalidate pa) c

/-- Invalidate the cache-tree child bound to operation `a` inside its parent,
leaving every other binding untouched: what the driver does when it calls
`invalidate` through a manager view onto that child. -/
def invalidateChildAt (a : Nat) (pa : PreservedAnalyses) : NestedAnalysisMap → NestedAnalysisMap
  | .mk am cs =>
    .mk am (cs.map (fun e => if e.1 = a then (e.1, e.2.invalidate pa) else e))

/-- `AnalysisManager::clear`: clear the node's own analyses and drop the
entire child map (`impl->analyses.clear(); impl->childAnalyses.clear()`). -/
def AnalysisManager.clear : NestedAnalysisMap → NestedAnalysisMap
  | .mk am _ => .mk am.clear []

/-- `AnalysisManager::invalidate`: delegate to the nested map. -/
def AnalysisManager.invalidate (pa : PreservedAnalyses) (nm : NestedAnalysisMap) :
    NestedAnalysisMap :=
  nm.invalidate pa

/-- `AnalysisManager::getCachedChildAnalysis`: look for an existing child
cache-tree node and, when present, read its cache; the state is returned
unchanged, mirroring that the C++ member is `const` and allocates nothing. -/
def AnalysisManager.getCachedChildAnalysis (T : AnalysisType) (child : Nat)
    (nm : NestedAnalysisMap) : Option Nat × NestedAnalysisMap :=
  match lookupKey child nm.childAnalyses with
  | none => (none, nm)
  | some cnm => (cnm.analyses.getCachedAnalysis T, nm)

/-- A user analysis type with the default invalidation predicate. -/
def analysisA : AnalysisType := ⟨1, none⟩

/-- A user analysis type with a custom predicate that honours the all-flag. -/
def analysisB : AnalysisType := ⟨2, some (fun pa => !pa.isAll)⟩

/-- A concrete cached cell holding an `analysisA` instance. -/
def cellA : AnalysisConceptM := ⟨analysisA, 0⟩

/-- A per-node cache with `analysisA` already cached. -/
def amCached : AnalysisMap := ⟨7, [(1, cellA)], 1⟩

/-- A per-node cache holding one default-predicate and one custom-predicate
analysis. -/
def mMix : AnalysisMap := ⟨7, [(1, ⟨analysisA, 0⟩), (2, ⟨analysisB, 1⟩)], 2⟩

/-- A preserved set on which only `preserveAll()` was called. -/
def paAllOnly : PreservedAnalyses := emptyPA.preserveAll

/-- A preserved set preserving analysis id 1 explicitly and then everything. -/
def paAllEx : PreservedAnalyses := (emptyPA.preserve 1).preserveAll

/-- A preserved set preserving only the unrelated id 3. -/
def paNone3 : PreservedAnalyses := emptyPA.preserve 3

/-- A nested map for operation 5 with one child (operation 10) whose cache
holds an `analysisA` instance. -/
def nmEx : NestedAnalysisMap :=
  .mk ⟨5, [], 0⟩ [(10, .mk ⟨10, [(1, cellA)], 1⟩ [])]

/-- A nested map for operation 5 with two sibling children, 10 and 11, each
holding a cached `analysisA` instance. -/
def nmSib : NestedAnalysisMap :=
  .mk ⟨5, [], 0⟩
    [(10, .mk ⟨10, [(1, cellA)], 1⟩ []), (11, .mk ⟨11, [(1, ⟨analysisA, 4⟩)], 5⟩ [])]

/-- A parent function for the program-representation tree used in witnesses:
every operation's parent is operation 5. -/
def parentOfEx : Nat → Option Nat := fun _ => some 5

lemma lookupKey_eq_none {α : Type} (k : Nat) (l : List (Nat × α)) :
    lookupKey k l = none ↔ k ∉ l.map Prod.fst := by
  induction l with
  | nil => simp [lookupKey]
  | cons hd tl ih =>
    obtain ⟨k2, v⟩ := hd
    by_cases h : k2 = k
    · subst h
      simp [lookupKey]
    · simp [lookupKey, h, ih, Ne.symm h]

lemma lookupKey_append_some {α : Type} (k : Nat) (l l2 : List (Nat × α)) (v : α)
    (h : lookupKey k l = some v) : lookupKey k (l ++ l2) = some v := by
  induction l with
  | nil => simp [lookupKey] at h
  | cons hd tl ih =>
    obtain ⟨k2, u⟩ := hd
    by_cases hk : k2 = k
    · subst hk
      simp [lookupKey] at h ⊢
      exact h
    · simp [lookupKey, hk] at h ⊢
      exact ih h

lemma lookupKey_append_none {α : Type} (k : Nat) (l l2 : List (Nat × α))
    (h : lookupKey k l = none) : lookupKey k (l ++ l2) = lookupKey k l2 := by
  induction l with
  | nil => simp
  | cons hd tl ih =>
    obtain ⟨k2, u⟩ := hd
    by_cases hk : k2 = k
    · subst hk
      simp [lookupKey] at h
    · simp [lookupKey, hk] at h ⊢
      exact ih h

lemma lookupKey_filter_none {α : Type} (p : Nat × α → Bool) (k : Nat)
    (l : List (Nat × α)) (h : lookupKey k l = none) :
    lookupKey k (l.filter p) = none := by
  induction l with
  | nil => simp [lookupKey]
  | cons hd tl ih =>
    obtain ⟨k2, u⟩ := hd
    by_cases hk : k2 = k
    · subst hk
      simp [lookupKey] at h
    · simp [lookupKey, hk] at h
      rw [List.filter_cons]
      cases hp : p (k2, u)
      · simpa using ih h
      · simp [lookupKey, hk]
        exact ih h

lemma lookupKey_filter_some {α : Type} (p : Nat × α → Bool) (k : Nat)
    (l : List (Nat × α)) (v : α) (hnd : keysNodup l) (h : lookupKey k l = some v) :
    lookupKey k (l.filter p) = if p (k, v) then some v else none := by
  induction l with
  | nil => simp [lookupKey] at h
  | cons hd tl ih =>
    obtain ⟨k2, u⟩ := hd
    have hnd' : k2 ∉ tl.map Prod.fst ∧ keysNodup tl := by
      have hh := hnd
      simp only [keysNodup, List.map_cons, List.nodup_cons] at hh
      exact hh
    have hnd2 : keysNodup tl := hnd'.2
    by_cases hk : k2 = k
    · subst hk
      simp [lookupKey] at h
      subst h
      have htl : lookupKey k2 tl = none := (lookupKey_eq_none k2 tl).mpr hnd'.1
      rw [List.filter_cons]
      cases hp : p (k2, u)
      · simp [lookupKey_filter_none p k2 tl htl, hp]
      · simp [lookupKey, hp]
    · simp [lookupKey, hk] at h
      rw [List.filter_cons]
      cases hp : p (k2, u)
      · simpa using ih hnd2 h
      · simp [lookupKey, hk]
        exact ih hnd2 h

lemma keysNodup_filter {α : Type} (p : Nat × α → Bool) (l : List (Nat × α))
    (h : keysNodup l) : keysNodup (l.filter p) :=
  List.Nodup.sublist (List.Sublist.map Prod.fst (List.filter_sublist l)) h

lemma keysNodup_append_single {α : Type} (l : List (Nat × α)) (k : Nat) (v : α)
    (hnd : keysNodup l) (h : lookupKey k l = none) : keysNodup (l ++ [(k, v)]) := by
  have hk : k ∉ l.map Prod.fst := (lookupKey_eq_none k l).mp h
  unfold keysNodup at hnd ⊢
  rw [List.map_append, List.nodup_append]
  refine ⟨hnd, by simp, ?_⟩
  intro a ha hb
  simp at hb
  subst hb
  exact hk ha

lemma wfTrace_append (es1 es2 : List Event) (h1 : WFTrace es1) (h2 : WFTrace es2) :
    WFTrace (es1 ++ es2) := by
  induction h1 with
  | nil => simpa using h2
  | block id ir es h ih => exact WFTrace.block id ir (es ++ es2) ih

lemma stepTrace_wf (r : Req) (m : AnalysisMap) : WFTrace (stepTrace true r m).2 := by
  cases r with
  | get T =>
    cases h : lookupKey T.id m.analyses with
    | some c =>
      simp [stepTrace, AnalysisMap.getAnalysisImpl, h]
      exact WFTrace.nil
    | none =>
      simp [stepTrace, AnalysisMap.getAnalysisImpl, h]
      exact WFTrace.block T.id m.ir [] WFTrace.nil
  | getCached T => exact WFTrace.nil
  | inval pa => exact WFTrace.nil
  | clearReq => exact WFTrace.nil

lemma runTrace_wf (rs : List Req) (m : AnalysisMap) : WFTrace (runTrace true rs m).2 := by
  induction rs generalizing m with
  | nil => exact WFTrace.nil
  | cons r rs ih =>
    exact wfTrace_append _ _ (stepTrace_wf r m) (ih (stepTrace true r m).1)

lemma wfTrace_counts (es : List Event) (h : WFTrace es) (i : Nat) :
    countEv (isBefore i) es = countEv (isConstruct i) es ∧
    countEv (isAfter i) es = countEv (isConstruct i) es := by
  induction h with
  | nil => simp [countEv]
  | block id ir es2 h2 ih =>
    obtain ⟨ih1, ih2⟩ := ih
    by_cases hid : id = i
    · subst hid
      simp [countEv, List.filter_cons, isBefore, isConstruct, isAfter] at ih1 ih2 ⊢
      omega
    · simp [countEv, List.filter_cons, isBefore, isConstruct, isAfter, hid] at ih1 ih2 ⊢
      omega

lemma keysNodup_step (pi : Bool) (r : Req) (m : AnalysisMap) (h : keysNodup m.analyses) :
    keysNodup ((stepTrace pi r m).1.analyses) := by
  cases r with
  | get T =>
    cases hl : lookupKey T.id m.analyses with
    | some c => simpa [stepTrace, AnalysisMap.getAnalysisImpl, hl] using h
    | none =>
      simp [stepTrace, AnalysisMap.getAnalysisImpl, hl]
      exact keysNodup_append_single m.analyses T.id _ h hl
  | getCached T => simpa [stepTrace] using h
  | inval pa =>
    simp [stepTrace, AnalysisMap.invalidate]
    exact keysNodup_filter _ _ h
  | clearReq => simp [stepTrace, AnalysisMap.clear, keysNodup]

lemma keysNodup_run (pi : Bool) (rs : List Req) (m : AnalysisMap)
    (h : keysNodup m.analyses) : keysNodup ((runTrace pi rs m).1.analyses) := by
  induction rs generalizing m with
  | nil => simpa [runTrace] using h
  | cons r rs ih =>
    exact ih (stepTrace pi r m).1 (keysNodup_step pi r m h)

lemma lookupKey_step_preserved (pi : Bool) (r : Req) (m : AnalysisMap) (k : Nat)
    (c : AnalysisConceptM) (hr : nonInvalidating r = true)
    (h : lookupKey k m.analyses = some c) :
    lookupKey k ((stepTrace pi r m).1.analyses) = some c := by
  cases r with
  | get T =>
    cases hl : lookupKey T.id m.analyses with
    | some c2 => simpa [stepTrace, AnalysisMap.getAnalysisImpl, hl] using h
    | none =>
      simp [stepTrace, AnalysisMap.getAnalysisImpl, hl]
      exact lookupKey_append_some k m.analyses _ c h
  | getCached T => simpa [stepTrace] using h
  | inval pa => simp [nonInvalidating] at hr
  | clearReq => simp [nonInvalidating] at hr

lemma lookupKey_run_preserved (pi : Bool) (rs : List Req) (m : AnalysisMap)
    (k : Nat) (c : AnalysisConceptM) (hrs : ∀ r ∈ rs, nonInvalidating r = true)
    (h : lookupKey k m.analyses = some c) :
    lookupKey k ((runTrace pi rs m).1.analyses) = some c := by
  induction rs generalizing m with
  | nil => simpa [runTrace] using h
  | cons r rs ih =>
    exact ih (stepTrace pi r m).1
      (fun r2 hr2 => hrs r2 (List.mem_cons_of_mem r hr2))
      (lookupKey_step_preserved pi r m k c (hrs r (List.mem_cons_self r rs)) h)

lemma mem_insertID (j k : Nat) (l : List Nat) :
    j ∈ insertID k l ↔ j = k ∨ j ∈ l := by
  unfold insertID
  by_cases h : k ∈ l
  · simp [h]
    intro hj
    subst hj
    exact h
  · simp [h]

lemma insertID_ne_nil (k : Nat) (l : List Nat) : insertID k l ≠ [] := by
  unfold insertID
  by_cases h : k ∈ l
  · simp [h]
    intro hl
    subst hl
    simp at h
  · simp [h]

lemma applyPA_isPreserved (ops : List PAOp) (s : PreservedAnalyses) (id : Nat) :
    (applyPA ops s).isPreserved id = true ↔
      id ∈ s.preservedIDs ∨ PAOp.preserve id ∈ ops ∨
        (id = allAnalysesID ∧ PAOp.preserveAllOp ∈ ops) := by
  induction ops generalizing s with
  | nil => simp [applyPA, PreservedAnalyses.isPreserved]
  | cons op ops ih =>
    cases op with
    | preserve j =>
      simp only [applyPA, ih, PreservedAnalyses.preserve, mem_insertID, List.mem_cons]
      constructor
      · rintro (⟨h | h⟩ | h | h) <;> tauto
      · rintro (h | ⟨h | h⟩ | h)
        · tauto
        · cases h
          tauto
        · tauto
        · tauto
    | preserveAllOp =>
      simp only [applyPA, ih, PreservedAnalyses.preserveAll, mem_insertID, List.mem_cons]
      constructor
      · rintro (⟨h | h⟩ | h | h) <;> tauto
      · rintro (h | ⟨h | h⟩ | ⟨h1, h2 | h2⟩)
        · tauto
        · cases h
        · tauto
        · tauto
        · tauto

lemma applyPA_preservedIDs_nil (ops : List PAOp) (s : PreservedAnalyses) :
    (applyPA ops s).preservedIDs = [] ↔ s.preservedIDs = [] ∧ ops = [] := by
  induction ops generalizing s with
  | nil => simp [applyPA]
  | cons op ops ih =>
    cases op with
    | preserve j =>
      simp only [applyPA, ih, PreservedAnalyses.preserve]
      simp
      intro h
      exact absurd h (insertID_ne_nil j s.preservedIDs)
    | preserveAllOp =>
      simp only [applyPA, ih, PreservedAnalyses.preserveAll]
      simp
      intro h
      exact absurd h (insertID_ne_nil allAnalysesID s.preservedIDs)

/-- Claim C2, as stated, is false on the code: `isPreserved` is a plain
membership test on the explicit id set, so after `preserveAll()` (which only
inserts the private sentinel id) a query for an unrelated id still returns
false. Here the set has `preserveAll()` called (so `isAll()` holds), yet
`isPreserved 5` is false. -/
theorem claim_C2_counterexample :
    (emptyPA.preserveAll).isAll = true ∧ (emptyPA.preserveAll).isPreserved 5 = false :=
  ⟨by decide, by decide⟩

/-- Claim C2 (amended): for a set built by any sequence of `preserve` /
`preserveAll` calls, `isPreserved(id)` returns true exactly when `preserve(id)`
was called, or `id` is the `AllAnalysesType` sentinel and `preserveAll()` was
called; the all-flag does not make queries for other ids return true. -/
theorem claim_C2 : ∀ (ops : List PAOp) (id : Nat),
    (applyPA ops emptyPA).isPreserved id = true ↔
      PAOp.preserve id ∈ ops ∨ (id = allAnalysesID ∧ PAOp.preserveAllOp ∈ ops) := by
  intro ops id
  rw [applyPA_isPreserved]
  simp [emptyPA]

/-- Claim C9: `isNone()` is true exactly on a set to which no `preserve` and
no `preserveAll` call was ever applied; it is true on a freshly constructed
set and false after any such call. -/
theorem claim_C9 :
    emptyPA.isNone = true ∧
    ∀ ops : List PAOp, ((applyPA ops emptyPA).isNone = true ↔ ops = []) := by
  constructor
  · rfl
  · intro ops
    rw [PreservedAnalyses.isNone, List.isEmpty_iff, applyPA_preservedIDs_nil]
    simp [emptyPA]

/-- Claim C1, as stated, is false on the code: the default invalidation
predicate is `!pa.isPreserved<AnalysisT>()`, and `isPreserved` is a plain
membership test that ignores the all-flag, so a cached default-predicate
analysis is evicted by `AnalysisMap::invalidate` even when only
`preserveAll()` was called on the set. -/
theorem claim_C1_counterexample :
    paAllOnly.isAll = true ∧
    amCached.getCachedAnalysis analysisA = some 0 ∧
    (amCached.invalidate paAllOnly).getCachedAnalysis analysisA = none :=
  ⟨by decide, rfl, rfl⟩

/-- Claim C1 (amended): `AnalysisMap::invalidate` on a set with the all-flag
set evicts nothing, provided every cached analysis either has a custom
predicate that respects `isAll()`, or uses the default predicate and has its
own id in the set; a default-predicate analysis whose id is not in the set is
evicted even though `preserveAll()` was called, because the default predicate
checks only id membership. -/
theorem claim_C1 (m : AnalysisMap) (pa : PreservedAnalyses)
    (hall : pa.isAll = true)
    (hcustom : ∀ kc ∈ m.analyses, ∀ f, kc.2.ty.custom = some f → respectsIsAll f)
    (hdefault : ∀ kc ∈ m.analyses, kc.2.ty.custom = none →
      pa.isPreserved kc.2.ty.id = true) :
    m.invalidate pa = m := by
  unfold AnalysisMap.invalidate
  have hfil : m.analyses.filter (fun kc => !(kc.2.isInvalidated pa)) = m.analyses := by
    rw [List.filter_eq_self]
    intro kc hkc
    unfold AnalysisConceptM.isInvalidated analysisIsInvalidated
    cases hc : kc.2.ty.custom with
    | some f => simp [hcustom kc hkc f hc pa hall]
    | none => simp [hdefault kc hkc hc]
  rw [hfil]

/-- The amended claim C1 holds at a concrete cache mixing a default-predicate
analysis whose id is explicitly preserved with a custom-predicate analysis
whose predicate honours the all-flag. -/
theorem claim_C1_witness : mMix.invalidate paAllEx = mMix := by
  refine claim_C1 mMix paAllEx (by decide) ?_ ?_
  · intro kc hkc f hf
    simp [mMix] at hkc
    rcases hkc with h | h
    · rw [h] at hf
      simp [analysisA] at hf
    · rw [h] at hf
      simp [analysisB] at hf
      intro q hq
      rw [← hf]
      simp [hq]
  · intro kc hkc hc
    simp [mMix] at hkc
    rcases hkc with h | h
    · rw [h]
      decide
    · rw [h] at hc
      simp [analysisB] at hc

lemma lookupKey_map_invalidate (pa : PreservedAnalyses) (a b : Nat) (hab : b ≠ a)
    (cs : List (Nat × NestedAnalysisMap)) :
    lookupKey b (cs.map (fun e => if e.1 = a then (e.1, e.2.invalidate pa) else e)) =
      lookupKey b cs := by
  induction cs with
  | nil => rfl
  | cons e tl ih =>
    obtain ⟨k, v⟩ := e
    simp only [List.map_cons]
    by_cases hk : k = a
    · subst hk
      have hhead : (if ((k, v) : Nat × NestedAnalysisMap).1 = k then
            (((k, v) : Nat × NestedAnalysisMap).1,
              ((k, v) : Nat × NestedAnalysisMap).2.invalidate pa)
          else (k, v)) = (k, v.invalidate pa) := by
        simp
      rw [hhead]
      simp only [lookupKey]
      rw [if_neg (Ne.symm hab), if_neg (Ne.symm hab)]
      exact ih
    · have hhead : (if ((k, v) : Nat × NestedAnalysisMap).1 = a then
            (((k, v) : Nat × NestedAnalysisMap).1,
              ((k, v) : Nat × NestedAnalysisMap).2.invalidate pa)
          else (k, v)) = (k, v) := by
        simp [hk]
      rw [hhead]
      simp only [lookupKey]
      by_cases hb : k = b
      · rw [if_pos hb, if_pos hb]
      · rw [if_neg hb, if_neg hb]
        exact ih

/-- Claim C3: invalidating through a manager view touches only that node's own
per-node cache: the node's child map (hence every descendant cache) is left
unchanged, invalidating one child inside a parent leaves every sibling's
binding untouched, and leaves the parent's own cache untouched. -/
theorem claim_C3 (pa : PreservedAnalyses) :
    (∀ nm : NestedAnalysisMap,
      (AnalysisManager.invalidate pa nm).childAnalyses = nm.childAnalyses) ∧
    (∀ (p : NestedAnalysisMap) (a b : Nat), b ≠ a →
      lookupKey b (invalidateChildAt a pa p).childAnalyses =
        lookupKey b p.childAnalyses) ∧
    (∀ (p : NestedAnalysisMap) (a : Nat),
      (invalidateChildAt a pa p).analyses = p.analyses) := by
  refine ⟨?_, ?_, ?_⟩
  · intro nm
    cases nm
    rfl
  · intro p a b hab
    cases p with
    | mk am cs =>
      exact lookupKey_map_invalidate pa a b hab cs
  · intro p a
    cases p
    rfl

/-- The claim C3 theorem at a concrete tree: invalidating child 10 of nmSib
leaves sibling 11's binding unchanged. -/
theorem claim_C3_witness :
    lookupKey 11 (invalidateChildAt 10 paNone3 nmSib).childAnalyses =
      lookupKey 11 nmSib.childAnalyses :=
  (claim_C3 paNone3).2.1 nmSib 10 11 (by decide)

/-- Claim C4, as stated, is false on the code: `AnalysisManager::clear` also
runs `impl->childAnalyses.clear()`, so the child cache-tree nodes are
destroyed rather than left unchanged. Before the clear, child 10 of nmEx has
a cached analysis; after it, the child map is empty and the lookup is absent. -/
theorem claim_C4_counterexample :
    nmEx.childAnalyses ≠ [] ∧
    (AnalysisManager.getCachedChildAnalysis analysisA 10 nmEx).1 = some 0 ∧
    (AnalysisManager.clear nmEx).childAnalyses = [] ∧
    (AnalysisManager.getCachedChildAnalysis analysisA 10 (AnalysisManager.clear nmEx)).1 =
      none :=
  ⟨by simp [nmEx, NestedAnalysisMap.childAnalyses], rfl, rfl, rfl⟩

/-- Claim C4 (amended): `AnalysisManager::clear` unconditionally evicts all
analysis cells of the view's own node and additionally clears the child map,
destroying every child cache-tree node and its cached analyses. -/
theorem claim_C4 : ∀ (nm : NestedAnalysisMap) (T : AnalysisType) (child : Nat),
    (AnalysisManager.clear nm).analyses.getCachedAnalysis T = none ∧
    (AnalysisManager.clear nm).childAnalyses = [] ∧
    (AnalysisManager.getCachedChildAnalysis T child (AnalysisManager.clear nm)).1 =
      none := by
  intro nm T child
  cases nm
  exact ⟨rfl, rfl, rfl⟩

/-- Claim C5: for a cached analysis with the default predicate, invalidation
with a set not containing its id makes the cached read absent, while a set
containing its id leaves the very same instance cached. -/
theorem claim_C5 (m : AnalysisMap) (T : AnalysisType) (c : AnalysisConceptM)
    (pa : PreservedAnalyses) (hnd : keysNodup m.analyses)
    (hc : lookupKey T.id m.analyses = some c) (hty : c.ty = T)
    (hdef : T.custom = none) :
    (pa.isPreserved T.id = false →
      (m.invalidate pa).getCachedAnalysis T = none) ∧
    (pa.isPreserved T.id = true →
      (m.invalidate pa).getCachedAnalysis T = some c.tok) := by
  have hfil := lookupKey_filter_some (fun kc => !(kc.2.isInvalidated pa)) T.id
    m.analyses c hnd hc
  have hpred : c.isInvalidated pa = !(pa.isPreserved T.id) := by
    simp [AnalysisConceptM.isInvalidated, analysisIsInvalidated, hty, hdef]
  constructor
  · intro hnp
    simp only [AnalysisMap.getCachedAnalysis, AnalysisMap.invalidate]
    rw [hfil]
    simp [hpred, hnp]
  · intro hp
    simp only [AnalysisMap.getCachedAnalysis, AnalysisMap.invalidate]
    rw [hfil]
    simp [hpred, hp]

/-- The claim C5 theorem at a concrete cache: the default-predicate analysis
cached in amCached is evicted by a set preserving only the unrelated id 3. -/
theorem claim_C5_witness :
    (amCached.invalidate paNone3).getCachedAnalysis analysisA = none :=
  (claim_C5 amCached analysisA cellA paNone3 (by simp [keysNodup, amCached])
    rfl rfl rfl).1 (by decide)

/-- Claim C6: with an instrumentation sink installed, the event trace of any
request sequence is a chain of construction blocks, each a before-notification
immediately followed by the construction and its after-notification of the
same analysis on the same operation; per analysis id the before-counts and
after-counts equal the construction counts, so the notifications fire exactly
once per analysis actually constructed; a `getAnalysis` that hits the cache
and every `getCachedAnalysis` emit no event and leave the cache unchanged. -/
theorem claim_C6 : ∀ (rs : List Req) (m : AnalysisMap),
    WFTrace (runTrace true rs m).2 ∧
    (∀ i : Nat,
      countEv (isBefore i) (runTrace true rs m).2 =
        countEv (isConstruct i) (runTrace true rs m).2 ∧
      countEv (isAfter i) (runTrace true rs m).2 =
        countEv (isConstruct i) (runTrace true rs m).2) ∧
    (∀ (T : AnalysisType) (c : AnalysisConceptM),
      lookupKey T.id m.analyses = some c →
        stepTrace true (Req.get T) m = (m, [])) ∧
    (∀ T : AnalysisType, stepTrace true (Req.getCached T) m = (m, [])) := by
  intro rs m
  refine ⟨runTrace_wf rs m, fun i => wfTrace_counts _ (runTrace_wf rs m) i, ?_,
    fun T => rfl⟩
  intro T c h
  simp [stepTrace, AnalysisMap.getAnalysisImpl, h]

/-- The claim C6 theorem at a concrete cache: a request for the analysis
already cached in amCached emits no event and changes nothing. -/
theorem claim_C6_witness :
    stepTrace true (Req.get analysisA) amCached = (amCached, []) :=
  (claim_C6 [] amCached).2.2.1 analysisA cellA rfl

/-- Claim C7: after a `getAnalysis` request for an analysis on a per-node
cache, any interleaved sequence of requests containing no invalidation and no
clear leaves a second `getAnalysis` request for that analysis a pure cache
hit: it returns the same underlying instance, changes no state, and emits no
event; and key uniqueness — at most one cell per analysis type — is an
invariant of every request sequence. -/
theorem claim_C7 : ∀ (pi : Bool) (T : AnalysisType) (m : AnalysisMap),
    (∀ rs : List Req, (∀ r ∈ rs, nonInvalidating r = true) →
      (runTrace pi rs (m.getAnalysisImpl pi T).1).1.getAnalysisImpl pi T =
        ((runTrace pi rs (m.getAnalysisImpl pi T).1).1,
          (m.getAnalysisImpl pi T).2.1, ([] : List Event))) ∧
    (keysNodup m.analyses →
      ∀ rs : List Req, keysNodup ((runTrace pi rs m).1.analyses)) := by
  intro pi T m
  constructor
  · intro rs hrs
    have hcell : ∃ c : AnalysisConceptM,
        lookupKey T.id (m.getAnalysisImpl pi T).1.analyses = some c ∧
        c.tok = (m.getAnalysisImpl pi T).2.1 := by
      cases h : lookupKey T.id m.analyses with
      | some c =>
        exact ⟨c, by simp [AnalysisMap.getAnalysisImpl, h],
          by simp [AnalysisMap.getAnalysisImpl, h]⟩
      | none =>
        refine ⟨⟨T, m.nextTok⟩, ?_, by simp [AnalysisMap.getAnalysisImpl, h]⟩
        simp only [AnalysisMap.getAnalysisImpl, h]
        rw [lookupKey_append_none T.id m.analyses _ h]
        simp [lookupKey]
    obtain ⟨c, hc1, hc2⟩ := hcell
    rw [← hc2]
    generalize hM : (m.getAnalysisImpl pi T).1 = m1 at hc1 ⊢
    have hrun := lookupKey_run_preserved pi rs m1 T.id c hrs hc1
    unfold AnalysisMap.getAnalysisImpl
    rw [hrun]
  · intro hnd rs
    exact keysNodup_run pi rs m hnd

/-- The claim C7 theorem at a concrete cache: with a request for another
analysis and a cached read interleaved between the two `getAnalysis` calls,
the second call is still a hit on the same instance, and the key-uniqueness
invariant survives a run that constructs a second analysis on amCached. -/
theorem claim_C7_witness :
    ((runTrace true [Req.get analysisB, Req.getCached analysisA]
        (amCached.getAnalysisImpl true analysisA).1).1.getAnalysisImpl true analysisA =
      ((runTrace true [Req.get analysisB, Req.getCached analysisA]
          (amCached.getAnalysisImpl true analysisA).1).1,
        (amCached.getAnalysisImpl true analysisA).2.1, ([] : List Event))) ∧
    keysNodup ((runTrace true [Req.get analysisB] amCached).1.analyses) :=
  ⟨(claim_C7 true analysisA amCached).1 [Req.get analysisB, Req.getCached analysisA]
      (by
        intro r hr
        simp only [List.mem_cons, List.not_mem_nil, or_false] at hr
        rcases hr with h | h <;> subst h <;> rfl),
    (claim_C7 true analysisA amCached).2 (by simp [keysNodup, amCached])
      [Req.get analysisB]⟩

/-- Claim C8: under the precondition that the child operation's parent is this
view's operation, `getCachedChildAnalysis` returns absent when no child
cache-tree node exists, returns the child's cached analysis when one does, and
returns the state unchanged — it never allocates a child node or mutates
cache state. -/
theorem claim_C8 (parentOf : Nat → Option Nat) (nm : NestedAnalysisMap)
    (child : Nat) (T : AnalysisType)
    (_hpre : parentOf child = some nm.getOperation) :
    (lookupKey child nm.childAnalyses = none →
      AnalysisManager.getCachedChildAnalysis T child nm = (none, nm)) ∧
    (∀ cnm, lookupKey child nm.childAnalyses = some cnm →
      AnalysisManager.getCachedChildAnalysis T child nm =
        (cnm.analyses.getCachedAnalysis T, nm)) ∧
    (AnalysisManager.getCachedChildAnalysis T child nm).2 = nm := by
  refine ⟨?_, ?_, ?_⟩
  · intro h
    simp [AnalysisManager.getCachedChildAnalysis, h]
  · intro cnm h
    simp [AnalysisManager.getCachedChildAnalysis, h]
  · unfold AnalysisManager.getCachedChildAnalysis
    cases lookupKey child nm.childAnalyses <;> rfl

/-- The claim C8 theorem at a concrete tree: operation 11 is a child of nmEx's
operation but was never nested, so the cached-child read is absent and the
tree is unchanged. -/
theorem claim_C8_witness :
    AnalysisManager.getCachedChildAnalysis analysisA 11 nmEx = (none, nmEx) :=
  (claim_C8 parentOfEx nmEx 11 analysisA rfl).1 rfl

/-- Claim C10: immediately after `getAnalysis` returns, a cached read for the
same analysis type on the same node is present and refers to the instance the
compute returned — both operations key on the same `TypeID`. -/
theorem claim_C10 : ∀ (pi : Bool) (T : AnalysisType) (m : AnalysisMap),
    ((m.getAnalysisImpl pi T).1).getCachedAnalysis T =
      some (m.getAnalysisImpl pi T).2.1 := by
  intro pi T m
  cases h : lookupKey T.id m.analyses with
  | some c => simp [AnalysisMap.getAnalysisImpl, AnalysisMap.getCachedAnalysis, h]
  | none =>
    have h2 : lookupKey T.id
        (m.analyses ++ [(T.id, (⟨T, m.nextTok⟩ : AnalysisConceptM))]) =
        some ⟨T, m.nextTok⟩ := by
      rw [lookupKey_append_none T.id m.analyses _ h]
      simp [lookupKey]
    simp [AnalysisMap.getAnalysisImpl, AnalysisMap.getCachedAnalysis, h, h2]
